import Mathlib

/-!
Verification of the Agentic Jewelry Intelligence Framework's crawl and
product-processing core, shallowly embedded in Lean 4.

Strings from the Python source are modelled as `List Char`; Python `str`
operations (`in`, `lower`, `strip`, `split`, `rfind`, …) are modelled by
explicit executable functions below.  Machine-level Python `float` results of
the price parser are modelled exactly as rationals (`ℚ`), since every number
the parser produces is read from a finite decimal string.
-/

namespace Jewelry

/-- Model of Python `str` for char-level reasoning. -/
abbrev Str := List Char

/-- `isSubstr needle hay` models Python `needle in hay` (substring test). -/
def isSubstr (needle hay : Str) : Bool :=
  if needle.isPrefixOf hay then true
  else
    match hay with
    | [] => needle.isEmpty
    | _ :: t => isSubstr needle t

/-- Model of Python `str.lower()` (ASCII range, as in the URLs handled here). -/
def lowerStr (s : Str) : Str := s.map Char.toLower

/-- Python `any(kw in s for kw in kws)`. -/
def anySub (kws : List Str) (s : Str) : Bool := kws.any (fun kw => isSubstr kw s)

/-- Python `\s` whitespace class (ASCII members). -/
def isPySpace (c : Char) : Bool :=
  c = ' ' || c = '\t' || c = '\n' || c = '\r' || c.toNat = 11 || c.toNat = 12

/-- Python `str.strip()`: remove leading and trailing whitespace. -/
def stripStr (s : Str) : Str :=
  ((s.dropWhile isPySpace).reverse.dropWhile isPySpace).reverse

/-- Character class of the regex `[\d\s.,]` used by `_parse_price_amount`. -/
def priceClass (c : Char) : Bool :=
  c.isDigit || isPySpace c || c = '.' || c = ','

/-- Python `str.split(sep)` for a single-character separator (always returns
at least one piece). -/
def splitOnChar (sep : Char) : Str → List Str
  | [] => [[]]
  | c :: t =>
    if c = sep then [] :: splitOnChar sep t
    else
      match splitOnChar sep t with
      | [] => [[c]]
      | h :: r => (c :: h) :: r

/-- Decimal digits to a natural number. -/
def digitsToNat (s : Str) : Nat :=
  s.foldl (fun n c => 10 * n + (c.toNat - 48)) 0

/-- Python `float(s)` on the digit/dot strings produced by the price parser:
accepts `d+`, `d+.d*`, `.d+`, `d+.d+`; anything else (empty, several dots,
stray separators) raises, modelled as `none`.  The value is exact, as a
rational. -/
def parseFloat (s : Str) : Option ℚ :=
  match splitOnChar '.' s with
  | [a] =>
    if a ≠ [] ∧ a.all Char.isDigit then some (digitsToNat a : ℚ) else none
  | [a, b] =>
    if (a ++ b) ≠ [] ∧ a.all Char.isDigit ∧ b.all Char.isDigit then
      some ((digitsToNat a : ℚ) + (digitsToNat b : ℚ) / (10 : ℚ) ^ b.length)
    else none
  | _ => none

/-- Python `str.rfind(c)` restricted to the found case: index of the last
occurrence of `c`. -/
def rfindIdx (c : Char) (s : Str) : Option Nat :=
  match s.reverse.findIdx? (fun x => x = c) with
  | some k => some (s.length - 1 - k)
  | none => none

/-- The string-rewriting phase of `ExtractorAgent._parse_price_amount`
(extractor.py lines 167-249): search for the first run matching `[\d\s.,]+`,
strip it, drop internal whitespace, then rewrite the separators according to
the US/EU/Indian/plain format decision, yielding the exact string handed to
Python's `float` (or `none` where the source returns `None` before calling
`float`). -/
def parsePriceDigits (priceStr : Str) : Option Str :=
  if priceStr = [] then none
  else
    let s := stripStr priceStr
    let matched := (s.dropWhile (fun c => !priceClass c)).takeWhile priceClass
    if matched = [] then none
    else
      let cleaned := (stripStr matched).filter (fun c => !isPySpace c)
      if ',' ∈ cleaned ∧ '.' ∈ cleaned then
        let lastComma := (rfindIdx ',' cleaned).getD 0
        let lastDot := (rfindIdx '.' cleaned).getD 0
        if lastDot > lastComma then
          some (cleaned.filter (fun c => c ≠ ','))
        else
          some ((cleaned.filter (fun c => c ≠ '.')).map
            (fun c => if c = ',' then '.' else c))
      else if ',' ∈ cleaned then
        let parts := splitOnChar ',' cleaned
        if parts.length = 2 ∧ (parts.getD 1 []).length = 2 then
          some (cleaned.map (fun c => if c = ',' then '.' else c))
        else
          some (cleaned.filter (fun c => c ≠ ','))
      else if '.' ∈ cleaned then
        let parts := splitOnChar '.' cleaned
        if parts.length = 2 ∧ (parts.getD 1 []).length = 2 then
          some cleaned
        else
          some (cleaned.filter (fun c => c ≠ '.'))
      else if cleaned ≠ [] then some cleaned
      else none

/-- `ExtractorAgent._parse_price_amount`: the separator-rewriting phase
followed by Python `float` (whose failure, caught by the source's
`except`, is `none`). -/
def parsePriceAmount (priceStr : Str) : Option ℚ :=
  (parsePriceDigits priceStr).bind parseFloat

/-- The currency-symbol table of `ExtractorAgent._extract_currency`, in the
source's dictionary order. -/
def currencySymbols : List (Char × Str) :=
  [('$', "USD".toList), ('€', "EUR".toList), ('£', "GBP".toList),
   ('₹', "INR".toList), ('¥', "JPY".toList)]

/-- Currency codes of the fallback regex `\b(USD|EUR|GBP|INR|JPY|AUD|CAD)\b`,
in alternation order. -/
def currencyCodes : List Str :=
  ["USD".toList, "EUR".toList, "GBP".toList, "INR".toList, "JPY".toList,
   "AUD".toList, "CAD".toList]

/-- Python `\w` word character (ASCII members). -/
def isWordChar (c : Char) : Bool := c.isAlphanum || c = '_'

/-- Does `code` match case-insensitively at the head of `s`, followed by a
word boundary? -/
def codeMatchesAt (code s : Str) : Bool :=
  (lowerStr (s.take code.length) == lowerStr code) &&
  (match s.drop code.length with
   | [] => true
   | c :: _ => !isWordChar c)

/-- Leftmost word-bounded case-insensitive currency-code match, trying the
alternatives in order at each position; `prev` records whether the character
before the current position is a word character. -/
def findCodeFrom (prev : Bool) : Str → Option Str
  | [] => none
  | c :: t =>
    if !prev then
      match currencyCodes.find? (fun code => codeMatchesAt code (c :: t)) with
      | some code => some code
      | none => findCodeFrom (isWordChar c) t
    else findCodeFrom (isWordChar c) t

/-- `ExtractorAgent._extract_currency` (extractor.py lines 251-270): symbol
lookup in dictionary order, then the word-bounded code regex. -/
def extractCurrency (text : Str) : Option Str :=
  match currencySymbols.find? (fun p => text.contains p.1) with
  | some p => some p.2
  | none => findCodeFrom false text

/-- Classifier verdicts, from `PageType` in `app/agents/crawler.py`. -/
inductive PageType where
  | PRODUCT
  | CATEGORY
  | LISTING
  | HOME
  | OTHER
deriving DecidableEq, Repr

/-! ### Model of Python `urllib.parse.urlparse` (the parts used by the crawler) -/

/-- WHATWG C0-control-or-space class stripped from the left of URLs by
`urlsplit`. -/
def isC0OrSpace (c : Char) : Bool := c.toNat ≤ 32

/-- The unsafe URL bytes (`\t`, `\r`, `\n`) removed everywhere by
`urlsplit`. -/
def isUnsafeUrlByte (c : Char) : Bool := c = '\t' || c = '\r' || c = '\n'

/-- `urlsplit`'s input sanitisation: left-strip C0 controls and spaces,
remove tab/CR/LF everywhere. -/
def sanitizeUrl (s : Str) : Str :=
  (s.dropWhile isC0OrSpace).filter (fun c => !isUnsafeUrlByte c)

/-- `urllib.parse.scheme_chars`. -/
def schemeChars : Str :=
  "abcdefghijklmnopqrstuvwxyzABCDEFGHIJKLMNOPQRSTUVWXYZ0123456789+-.".toList

/-- Scheme detection of `urlsplit`: chars before the first `:` form the
scheme when there is such a colon at a positive index, the first character is
an ASCII letter and every scheme character is legal; the scheme is
lower-cased. -/
def schemeSplit (u : Str) : Str × Str :=
  let pre := u.takeWhile (fun c => c ≠ ':')
  if pre.length < u.length ∧ pre ≠ [] ∧ (pre.headD ' ').isAlpha = true ∧
      pre.all (fun c => decide (c ∈ schemeChars)) = true then
    (lowerStr pre, u.drop (pre.length + 1))
  else ([], u)

/-- Characters that terminate the netloc in `_splitnetloc`. -/
def netlocDelim (c : Char) : Bool := c = '/' || c = '?' || c = '#'

/-- Result of `urlsplit`. -/
structure UrlSplitResult where
  scheme : Str
  netloc : Str
  path : Str
  query : Str
  fragment : Str
deriving DecidableEq, Repr

/-- Model of `urllib.parse.urlsplit`: sanitise, detect scheme, take the
netloc after `//` up to the next `/?#`, split the fragment at the first `#`,
then the query at the first `?`. -/
def urlsplitM (url0 : Str) : UrlSplitResult :=
  let u1 := sanitizeUrl url0
  let sp := schemeSplit u1
  let u2 := sp.2
  let nl : Str × Str :=
    if u2.take 2 = ['/', '/'] then
      ((u2.drop 2).takeWhile (fun c => !netlocDelim c),
       (u2.drop 2).dropWhile (fun c => !netlocDelim c))
    else ([], u2)
  let u3 := nl.2
  let u4 := u3.takeWhile (fun c => c ≠ '#')
  let fragment := (u3.dropWhile (fun c => c ≠ '#')).drop 1
  let path := u4.takeWhile (fun c => c ≠ '?')
  let query := (u4.dropWhile (fun c => c ≠ '?')).drop 1
  ⟨sp.1, nl.1, path, query, fragment⟩

/-- `urllib.parse.uses_params`. -/
def usesParams : List Str :=
  ["", "ftp", "hdl", "prospero", "http", "imap", "mailto", "mms", "news",
   "nntp", "tel", "telnet", "rtsp", "rtspu", "sftp", "svn", "svn+ssh",
   "sip", "sips", "snews", "ws", "wss", "https"].map String.toList

/-- Python `s.find(c, start)` restricted to the found case. -/
def findIdxFrom (c : Char) (s : Str) (start : Nat) : Option Nat :=
  ((s.drop start).findIdx? (fun x => x = c)).map (fun k => k + start)

/-- `urllib.parse._splitparams`: split the path's parameters at the first
`;` at or after the last `/` (anywhere when the path has no `/`). -/
def splitParams (u : Str) : Str × Str :=
  let i? : Option Nat :=
    if '/' ∈ u then
      match rfindIdx '/' u with
      | some j => findIdxFrom ';' u j
      | none => none
    else u.findIdx? (fun x => x = ';')
  match i? with
  | some i => (u.take i, u.drop (i + 1))
  | none => (u, [])

/-- Result of `urlparse`. -/
structure UrlParseResult where
  scheme : Str
  netloc : Str
  path : Str
  params : Str
  query : Str
  fragment : Str
deriving DecidableEq, Repr

/-- The parameter-splitting guard of `urlparse`: split only for schemes in
`uses_params` and paths containing `;`. -/
def paramsSplitIfUses (scheme path : Str) : Str × Str :=
  if scheme ∈ usesParams ∧ ';' ∈ path then splitParams path else (path, [])

/-- Model of `urllib.parse.urlparse`: `urlsplit`, then parameter splitting
for schemes in `uses_params` when the path contains `;`. -/
def urlparseM (url : Str) : UrlParseResult :=
  let s := urlsplitM url
  let pp := paramsSplitIfUses s.scheme s.path
  ⟨s.scheme, s.netloc, pp.1, pp.2, s.query, s.fragment⟩

/-- Reassembly of an absolute URL from components, as the inverse image on
which `_clean_url`'s idempotence is stated: `scheme://netloc` followed by
the path, an optional `?query` and an optional `#fragment`. -/
def assembleUrl (scheme netloc path query fragment : Str) : Str :=
  scheme ++ "://".toList ++ netloc ++ path ++
  (if query ≠ [] then '?' :: query else []) ++
  (if fragment ≠ [] then '#' :: fragment else [])

/-- Python `str.rstrip('/')`. -/
def rstripSlash (s : Str) : Str :=
  (s.reverse.dropWhile (fun c => c = '/')).reverse

/-- `IntelligentCrawler._clean_url` (crawler.py lines 1012-1019): parse,
drop the fragment (and, through `urlparse`, the params), right-strip `/`
from the path, reassemble scheme/netloc/path and keep a non-empty query. -/
def cleanUrl (url : Str) : Str :=
  let p := urlparseM url
  p.scheme ++ "://".toList ++ p.netloc ++ rstripSlash p.path ++
    (if p.query ≠ [] then '?' :: p.query else [])

/-! ### Link priority heuristic (`_calculate_enhanced_link_priority`) -/

/-- Very-high-priority keywords (likely products). -/
def veryHighKws : List Str :=
  ["/product/", "/item/", "/p/", "/shop/", "/buy/"].map String.toList

/-- High-priority keywords (category/collection). -/
def highKws : List Str :=
  ["/collection/", "/category/", "/catalog/", "/jewelry", "/jewellery"].map
    String.toList

/-- Medium-priority keywords (specific product types). -/
def mediumKws : List Str :=
  ["/ring", "/necklace", "/earring", "/bracelet", "/pendant", "/chain"].map
    String.toList

/-- Low-priority keywords. -/
def lowKws : List Str :=
  ["/new", "/best", "/featured", "/sale", "/trending"].map String.toList

/-- The avoid list (likely not products). -/
def avoidKws : List Str :=
  ["/blog", "/about", "/contact", "/cart", "/checkout", "/account",
   "/login", "/register", "/search", "/help", "/faq", "/privacy",
   "/terms", "/shipping", "/returns", "/reviews", "/warranty",
   ".pdf", ".jpg", ".png", ".gif", ".css", ".js", "/cdn-cgi/"].map
    String.toList

/-- `len(urlparse(url).path.split('/')) - 1`. -/
def urlPathDepth (url : Str) : Nat :=
  (splitOnChar '/' (urlparseM url).path).length - 1

/-- `IntelligentCrawler._calculate_enhanced_link_priority` (crawler.py lines
846-889): base 10 plus keyword bonuses, zeroed on an avoid-list match, then
adjusted by URL depth.  `patterns` are the run's learned product URL
patterns. -/
def calcEnhancedLinkPriority (patterns : List Str) (url : Str) : Int :=
  let u := lowerStr url
  let base : Int :=
    10 + (if anySub (veryHighKws ++ patterns.map lowerStr) u then 60 else 0)
       + (if anySub highKws u then 40 else 0)
       + (if anySub mediumKws u then 30 else 0)
       + (if anySub lowKws u then 20 else 0)
  let score : Int := if anySub avoidKws u then 0 else base
  let d := urlPathDepth url
  if 2 ≤ d ∧ d ≤ 4 then score + 5 * (d : Int)
  else if 4 < d then score - 5
  else score

/-- The depth adjustment term of the priority heuristic, in isolation. -/
def depthAdjust (d : Nat) : Int :=
  if 2 ≤ d ∧ d ≤ 4 then 5 * (d : Int) else if 4 < d then -5 else 0

/-! ### Product validation heuristic (`_validate_product_data`) -/

/-- The raw candidate dictionary built by `_extract_product_data`. -/
structure RawProduct where
  url : Str
  html : Str
  images : List Str
  title : Str
deriving DecidableEq, Repr

/-- Price/currency indicator of `_validate_product_data`, on the lower-cased
HTML. -/
def priceIndicator (h : Str) : Bool :=
  isSubstr "price".toList h || isSubstr "$".toList h || isSubstr "€".toList h ||
  isSubstr "₹".toList h || isSubstr "rs".toList h

/-- Purchase call-to-action indicator. -/
def ctaIndicator (h : Str) : Bool :=
  isSubstr "add to cart".toList h || isSubstr "add to bag".toList h ||
  isSubstr "buy now".toList h

/-- Literal "product" indicator. -/
def productWordIndicator (h : Str) : Bool := isSubstr "product".toList h

/-- At-least-one-image indicator (`len(product_data.get('images', [])) > 0`). -/
def imageIndicator (p : RawProduct) : Bool := decide (0 < p.images.length)

/-- The `indicators_found` counter of `_validate_product_data`. -/
def indicatorsFound (p : RawProduct) : Nat :=
  (if priceIndicator (lowerStr p.html) then 1 else 0) +
  (if ctaIndicator (lowerStr p.html) then 1 else 0) +
  (if productWordIndicator (lowerStr p.html) then 1 else 0) +
  (if imageIndicator p then 1 else 0)

/-- `IntelligentCrawler._validate_product_data` (crawler.py lines 982-1006):
require a URL, HTML of at least 500 characters, and at least one
indicator. -/
def validateProductData (p : RawProduct) : Bool :=
  if p.url = [] then false
  else if p.html = [] ∨ p.html.length < 500 then false
  else decide (1 ≤ indicatorsFound p)

/-- The specification's four-indicator disjunction: a currency/price signal,
a purchase call-to-action phrase, the literal substring "product", or at
least one discovered image. -/
def specIndicatorPresent (p : RawProduct) : Bool :=
  priceIndicator (lowerStr p.html) || ctaIndicator (lowerStr p.html) ||
  productWordIndicator (lowerStr p.html) || imageIndicator p

/-- The product branch of `crawl_url` (crawler.py lines 398-408): a
validated candidate is kept with verdict PRODUCT; a rejected one is dropped
and the page's classification is downgraded to OTHER. -/
def productBranch (p : RawProduct) : Option RawProduct × PageType :=
  if validateProductData p then (some p, .PRODUCT) else (none, .OTHER)

/-- A concrete candidate: all four indicators present, HTML shorter than 500
characters. -/
def shortHtmlCandidate : RawProduct :=
  ⟨"https://shop.example.com/product/ring-1".toList,
   "<p>gold ring product $99 add to cart</p>".toList,
   ["https://shop.example.com/i.jpg".toList],
   "Ring".toList⟩

/-! ### Sitemap resolution (`_crawl_sitemap` / `_crawl_nested_sitemap`) -/

/-- The nested-sitemap test of `_crawl_sitemap`:
`'sitemap' in url.lower() and '.xml' in url.lower()`. -/
def sitemapLooking (u : Str) : Bool :=
  isSubstr "sitemap".toList (lowerStr u) && isSubstr ".xml".toList (lowerStr u)

/-- `IntelligentCrawler._looks_like_product_url_sitemap` (crawler.py lines
937-966): a learned pattern occurs in the lower-cased URL, or the URL
contains the sole indicator `/product`. -/
def looksLikeProductUrlSitemap (patterns : List Str) (u : Str) : Bool :=
  patterns.any (fun p => isSubstr (lowerStr p) (lowerStr u)) ||
  isSubstr "/product".toList (lowerStr u)

/-- The network as the sitemap crawler sees it: which sitemap URLs resolve
(HTTP 200 with parseable XML) and the `<loc>` entries each contains. -/
def SitemapWorld := List (Str × List Str)

/-- Fetching a sitemap URL: `none` models a failed probe (non-200, timeout,
parse error). -/
def fetchSitemap (w : SitemapWorld) (u : Str) : Option (List Str) :=
  (w.find? (fun p => p.1 == u)).map (fun p => p.2)

/-- `self.product_urls.add(url)` on the run's product-URL set, modelled as a
duplicate-free list. -/
def addProductUrl (acc : List Str) (u : Str) : List Str :=
  if u ∈ acc then acc else acc ++ [u]

/-- `IntelligentCrawler._crawl_nested_sitemap` (crawler.py lines 153-167):
fetch the nested sitemap and add every product-looking `<loc>`; it does not
follow further sitemap references. -/
def crawlNestedSitemap (pats : List Str) (w : SitemapWorld) (acc : List Str)
    (u : Str) : List Str :=
  match fetchSitemap w u with
  | none => acc
  | some locs =>
    locs.foldl
      (fun a l => if looksLikeProductUrlSitemap pats l then addProductUrl a l
                  else a) acc

/-- The `<loc>` loop of `_crawl_sitemap` over one fetched sitemap:
sitemap-looking entries are expanded one level via
`_crawl_nested_sitemap`, product-looking entries are collected. -/
def processTopLocs (pats : List Str) (w : SitemapWorld) (acc : List Str)
    (locs : List Str) : List Str :=
  locs.foldl
    (fun a l =>
      if sitemapLooking l then crawlNestedSitemap pats w a l
      else if looksLikeProductUrlSitemap pats l then addProductUrl a l
      else a) acc

/-- The probe loop of `_crawl_sitemap` (crawler.py lines 103-151): try each
candidate sitemap URL in order; a failed fetch is skipped; after processing
one sitemap, stop as soon as any product URLs have been collected. -/
def crawlSitemapGo (pats : List Str) (w : SitemapWorld) :
    List Str → List Str → List Str
  | [], acc => acc
  | c :: rest, acc =>
    match fetchSitemap w c with
    | none => crawlSitemapGo pats w rest acc
    | some locs =>
      let acc2 := processTopLocs pats w acc locs
      if 0 < acc2.length then acc2 else crawlSitemapGo pats w rest acc2

/-- The fixed well-known sitemap paths probed by `_crawl_sitemap`. -/
def sitemapPaths : List Str :=
  ["/sitemap.xml", "/sitemap_index.xml", "/product-sitemap.xml",
   "/sitemap_products.xml", "/sitemap-products.xml",
   "/product_sitemap.xml"].map String.toList

/-- `urljoin(base_url, path)` for a base of the form `scheme://netloc`:
the candidate sitemap URLs. -/
def mkSitemapCandidates (root : Str) : List Str :=
  sitemapPaths.map (fun p => root ++ p)

/-- `_crawl_sitemap` run over a candidate list, starting from an empty
product-URL set. -/
def crawlSitemap (pats : List Str) (w : SitemapWorld) (cands : List Str) :
    List Str :=
  crawlSitemapGo pats w cands []

/-- A three-level sitemap world: the index references `sub_sitemap.xml`,
which references both `deep_sitemap.xml` (holding a product URL) and a
direct product URL. -/
def nestedSitemapWorld : SitemapWorld :=
  [("https://s.example.com/sitemap.xml".toList,
    ["https://s.example.com/sub_sitemap.xml".toList]),
   ("https://s.example.com/sub_sitemap.xml".toList,
    ["https://s.example.com/deep_sitemap.xml".toList,
     "https://s.example.com/product/a".toList]),
   ("https://s.example.com/deep_sitemap.xml".toList,
    ["https://s.example.com/product/b".toList])]

/-- How one `<loc>` entry `l` of a top-level sitemap can contribute a URL
`v` to the collected set: via one-level nested expansion when `l` is
sitemap-looking, or directly when `l` is `v` itself and product-looking. -/
def locContributes (pats : List Str) (w : SitemapWorld) (l v : Str) : Prop :=
  (sitemapLooking l = true ∧ looksLikeProductUrlSitemap pats v = true ∧
    v ∈ (fetchSitemap w l).getD []) ∨
  (sitemapLooking l = false ∧ l = v ∧
    looksLikeProductUrlSitemap pats v = true)

/-! ### Bounded concurrent crawl pool (`_intelligent_crawl` / `crawl_url`)

The worker coroutines of `_intelligent_crawl` are modelled as a small-step
interleaving system: each worker owns one crawl task (a URL) and advances
through the observable phases of `crawl_url`, with the run-lock-guarded
visited check-and-set as one atomic step.  Quantifying theorems over all
action sequences covers every cooperative schedule of the event loop. -/

/-- The static skip list of `IntelligentCrawler._should_skip_url`
(crawler.py lines 891-902). -/
def skipPatterns : List Str :=
  ["/cdn-cgi/", "/api/", "/ajax/", "/.well-known/",
   ".pdf", ".jpg", ".jpeg", ".png", ".gif", ".svg", ".css", ".js", ".ico",
   "/cart", "/checkout", "/account", "/login", "/register",
   "/password", "/logout", "/wishlist", "/blog", "/news"].map String.toList

/-- `IntelligentCrawler._should_skip_url`. -/
def shouldSkipUrl (url : Str) : Bool := anySub skipPatterns (lowerStr url)

/-- Phases of one `crawl_url` worker. -/
inductive CrawlPhase where
  | pending
  | passed
  | fetched
  | dropped
deriving DecidableEq, Repr

/-- One crawl task and how far its worker has progressed. -/
structure CrawlWorker where
  url : Str
  phase : CrawlPhase
deriving DecidableEq, Repr

/-- Shared crawl-pool state: the run's visited set (duplicate-free by the
gate's construction) and the workers. -/
structure CrawlState where
  visited : List Str
  workers : List CrawlWorker
deriving DecidableEq, Repr

/-- Scheduler actions: `gate i` runs worker `i`'s lock-guarded visited
check-and-set (crawler.py lines 357-364); `fetch i` performs its page
fetch. -/
inductive CrawlAct where
  | gate (i : Nat)
  | fetch (i : Nat)
deriving DecidableEq, Repr

/-- One interleaving step of the crawl pool.  The gate step is atomic
because the source holds `self.lock` across the visited test, the budget
test, the skip test and `visited_urls.add` without suspending. -/
def crawlStep (maxPages : Nat) (st : CrawlState) (a : CrawlAct) : CrawlState :=
  match a with
  | .gate i =>
    match st.workers[i]? with
    | some w =>
      if w.phase = .pending then
        if w.url ∈ st.visited ∨ maxPages ≤ st.visited.length then
          { st with workers := st.workers.set i { w with phase := .dropped } }
        else if shouldSkipUrl w.url then
          { st with workers := st.workers.set i { w with phase := .dropped } }
        else
          { visited := w.url :: st.visited,
            workers := st.workers.set i { w with phase := .passed } }
      else st
    | none => st
  | .fetch i =>
    match st.workers[i]? with
    | some w =>
      if w.phase = .passed then
        { st with workers := st.workers.set i { w with phase := .fetched } }
      else st
    | none => st

/-- Initial crawl-pool state for a given list of task URLs. -/
def initCrawlState (urls : List Str) : CrawlState :=
  { visited := [], workers := urls.map (fun u => ⟨u, .pending⟩) }

/-- A crawl-pool run: the initial state driven by a schedule. -/
def runCrawl (maxPages : Nat) (urls : List Str) (acts : List CrawlAct) :
    CrawlState :=
  acts.foldl (crawlStep maxPages) (initCrawlState urls)

/-- Is worker `w` a completed fetch of URL `u`? -/
def isFetchOf (u : Str) (w : CrawlWorker) : Bool :=
  decide (w.phase = .fetched ∧ w.url = u)

/-- Is worker `w` past the gate (fetching or fetched) on URL `u`? -/
def isActiveOn (u : Str) (w : CrawlWorker) : Bool :=
  decide ((w.phase = .passed ∨ w.phase = .fetched) ∧ w.url = u)

/-- Number of workers that fetched URL `u`. -/
def fetchCount (u : Str) (st : CrawlState) : Nat :=
  st.workers.countP (isFetchOf u)

/-- Number of workers past the gate on URL `u`. -/
def activeCount (u : Str) (st : CrawlState) : Nat :=
  st.workers.countP (isActiveOn u)

/-- The crawl-pool invariant: the visited set is duplicate-free, and for
every URL at most one worker is past the gate, and only when the URL is
visited. -/
def CrawlInv (st : CrawlState) : Prop :=
  st.visited.Nodup ∧
  ∀ u, activeCount u st ≤ (if u ∈ st.visited then 1 else 0)

/-! ### Product processing orchestrator (`run_scraping_pipeline`)

The `process_product` coroutines (orchestrator.py lines 98-159) are modelled
the same way: `acquire` takes a slot of the `asyncio.Semaphore`; `gate` is
the lock-guarded stored-cap check at worker entry (lines 102-104); the
`fin*` steps are the observable completions — a successful store with its
lock-guarded counter increment (lines 136-148), a skip (inference `None` or
duplicate), a persistence failure caught inside `store_jewel` (storage.py
lines 86-89, surfacing as a skip), and a pipeline exception reaching
`process_product`'s handler (lines 155-158), which increments the error
counter. -/

/-- Final outcomes of one `process_product` worker. -/
inductive ProdOutcome where
  | aborted
  | stored
  | skipped
  | persistFailed
  | failed
deriving DecidableEq, Repr

/-- Phases of one `process_product` worker. -/
inductive ProdPhase where
  | ready
  | acquired
  | passed
  | done (o : ProdOutcome)
deriving DecidableEq, Repr

/-- Shared orchestrator state: the `stats` counters touched by the claims
and the workers. -/
structure ProdState where
  stored : Nat
  errors : Nat
  workers : List ProdPhase
deriving DecidableEq, Repr

/-- Scheduler actions for the orchestrator workers. -/
inductive ProdAct where
  | acquire (i : Nat)
  | gate (i : Nat)
  | finStore (i : Nat)
  | finSkip (i : Nat)
  | finPersistFail (i : Nat)
  | finFail (i : Nat)
deriving DecidableEq, Repr

/-- Does a worker in phase `w` hold a semaphore slot? -/
def holdsSlot : ProdPhase → Bool
  | .acquired => true
  | .passed => true
  | _ => false

/-- Number of held semaphore slots. -/
def holders (st : ProdState) : Nat := st.workers.countP holdsSlot

/-- Number of workers past the cap gate and still processing. -/
def passedCount (st : ProdState) : Nat :=
  st.workers.countP (fun w => decide (w = .passed))

/-- Number of workers finished with outcome `o`. -/
def countOutcome (o : ProdOutcome) (st : ProdState) : Nat :=
  st.workers.countP (fun w => decide (w = .done o))

/-- One interleaving step of the orchestrator.  `cap` is
`settings.max_products_to_process` (the gate tests it only when positive,
as in `if max_products and max_products > 0 and ...`), `limit` the
semaphore size `max_concurrent_products`. -/
def prodStep (cap limit : Nat) (st : ProdState) (a : ProdAct) : ProdState :=
  match a with
  | .acquire i =>
    match st.workers[i]? with
    | some .ready =>
      if holders st < limit then
        { st with workers := st.workers.set i .acquired }
      else st
    | _ => st
  | .gate i =>
    match st.workers[i]? with
    | some .acquired =>
      if 0 < cap ∧ cap ≤ st.stored then
        { st with workers := st.workers.set i (.done .aborted) }
      else
        { st with workers := st.workers.set i .passed }
    | _ => st
  | .finStore i =>
    match st.workers[i]? with
    | some .passed =>
      { stored := st.stored + 1, errors := st.errors,
        workers := st.workers.set i (.done .stored) }
    | _ => st
  | .finSkip i =>
    match st.workers[i]? with
    | some .passed => { st with workers := st.workers.set i (.done .skipped) }
    | _ => st
  | .finPersistFail i =>
    match st.workers[i]? with
    | some .passed =>
      { st with workers := st.workers.set i (.done .persistFailed) }
    | _ => st
  | .finFail i =>
    match st.workers[i]? with
    | some .passed =>
      { stored := st.stored, errors := st.errors + 1,
        workers := st.workers.set i (.done .failed) }
    | _ => st

/-- Initial orchestrator state for `n` candidate products. -/
def initProdState (n : Nat) : ProdState :=
  ⟨0, 0, List.replicate n .ready⟩

/-- An orchestrator run: the initial state driven by a schedule. -/
def runProd (cap limit n : Nat) (acts : List ProdAct) : ProdState :=
  acts.foldl (prodStep cap limit) (initProdState n)

/-- The orchestrator invariant for a positive cap: the semaphore bound
holds, and either the cap is not yet reached or the stored count plus the
in-flight post-gate workers stays below `cap + limit`. -/
def ProdInv (cap limit : Nat) (st : ProdState) : Prop :=
  holders st ≤ limit ∧
  (st.stored < cap ∨ st.stored + passedCount st + 1 ≤ cap + limit)

/-- The decision block of `IntelligentCrawler._enhanced_classify_page`
(crawler.py lines 596-606), taking the lower-cased URL and the computed
signal scores as inputs. -/
def classifyDecision (urlLower : Str) (productScore categoryScore : Int)
    (productCards : Nat) : PageType :=
  if isSubstr "/product".toList urlLower then .PRODUCT
  else if productScore ≥ 40 then .PRODUCT
  else if categoryScore ≥ 30 then
    (if productCards ≥ 10 then .CATEGORY else .LISTING)
  else if productCards ≥ 3 then .LISTING
  else .OTHER

/-- The ordered decision rule exactly as the specification words it
(spec §4.3): explicit "/product" URL substring forces product; else product
score ≥ 40 → product; else category score ≥ 30 → category if card count ≥ 10
else listing; else card count ≥ 3 → listing; else other. -/
def specDecisionRule (urlLower : Str) (productScore categoryScore : Int)
    (productCards : Nat) : PageType :=
  if isSubstr "/product".toList urlLower then .PRODUCT
  else if productScore ≥ 40 then .PRODUCT
  else if categoryScore ≥ 30 then
    (if productCards ≥ 10 then .CATEGORY else .LISTING)
  else if productCards ≥ 3 then .LISTING
  else .OTHER

end Jewelry

namespace Jewelry

/-- For a page with product-card count 8 and category score 35 (product score
below the product threshold, no "/product" URL substring) the decision rule
yields LISTING, since the CATEGORY branch requires card count ≥ 10. -/
theorem classify_cards8_cs35_listing (urlLower : Str) (ps : Int)
    (hsub : isSubstr "/product".toList urlLower = false) (hps : ps < 40) :
    classifyDecision urlLower ps 35 8 = .LISTING := by
  unfold classifyDecision
  rw [hsub]
  simp only [Bool.false_eq_true, if_false]
  rw [if_neg (by omega), if_pos (by omega), if_neg (by omega)]

/-- Witness for `classify_cards8_cs35_listing` at a concrete URL and score. -/
theorem classify_cards8_cs35_listing_witness :
    classifyDecision (lowerStr "https://shop.example.com/collections/rings".toList)
      20 35 8 = .LISTING :=
  classify_cards8_cs35_listing _ 20 (by decide) (by decide)

/-- C4 fails on the code: with card count 8 and category score 35 (product
score 20, below the threshold) the classifier returns LISTING, not CATEGORY. -/
theorem classify_cards8_cs35_not_category :
    classifyDecision (lowerStr "https://shop.example.com/collections/rings".toList)
      20 35 8 = .LISTING ∧ (PageType.LISTING ≠ PageType.CATEGORY) := by
  constructor
  · decide
  · decide

/-- C5: the price parser maps "$1,234.56" to 1234.56 (currency USD),
"1.234,56 €" to 1234.56 (currency EUR), and "1 37 606" to 137606, the
space-separated grouping being collapsed before parsing. -/
theorem price_parser_examples :
    parsePriceAmount "$1,234.56".toList = some ((123456 : ℚ) / 100) ∧
    extractCurrency "$1,234.56".toList = some "USD".toList ∧
    parsePriceAmount "1.234,56 €".toList = some ((123456 : ℚ) / 100) ∧
    extractCurrency "1.234,56 €".toList = some "EUR".toList ∧
    parsePriceAmount "1 37 606".toList = some (137606 : ℚ) := by
  have d1 : parsePriceDigits "$1,234.56".toList = some "1234.56".toList := by decide
  have d2 : parsePriceDigits "1.234,56 €".toList = some "1234.56".toList := by decide
  have d3 : parsePriceDigits "1 37 606".toList = some "137606".toList := by decide
  have f1 : parseFloat "1234.56".toList = some ((123456 : ℚ) / 100) := by
    have hs : splitOnChar '.' "1234.56".toList = ["1234".toList, "56".toList] := by
      decide
    unfold parseFloat
    rw [hs]
    dsimp only
    rw [if_pos (by decide),
      show digitsToNat "1234".toList = 1234 from by decide,
      show digitsToNat "56".toList = 56 from by decide,
      show ("56".toList).length = 2 from by decide]
    norm_num
  have f3 : parseFloat "137606".toList = some ((137606 : ℚ)) := by
    have hs : splitOnChar '.' "137606".toList = ["137606".toList] := by decide
    unfold parseFloat
    rw [hs]
    dsimp only
    rw [if_pos (by decide), show digitsToNat "137606".toList = 137606 from by decide]
    norm_num
  refine ⟨?_, by decide, ?_, by decide, ?_⟩
  · rw [parsePriceAmount, d1, Option.some_bind, f1]
  · rw [parsePriceAmount, d2, Option.some_bind, f1]
  · rw [parsePriceAmount, d3, Option.some_bind, f3]

/-- C6 fails on the code: the URL `https://x.com/blog/post` matches the
avoid list, yet its priority is 10, not 0, because the depth bonus is added
after the avoid-list zeroing. -/
theorem link_priority_avoid_nonzero :
    anySub avoidKws (lowerStr "https://x.com/blog/post".toList) = true ∧
    calcEnhancedLinkPriority [] "https://x.com/blog/post".toList = 10 := by
  constructor
  · decide
  · decide

/-- The generic-link priority lies in [-5, 180]; for an avoid-list URL the
base and keyword bonuses are zeroed but the depth adjustment still applies,
so the result is exactly the depth adjustment (0, +10..+20, or -5), not
necessarily zero. -/
theorem link_priority_range_and_avoid (patterns : List Str) (url : Str) :
    (-5 ≤ calcEnhancedLinkPriority patterns url ∧
      calcEnhancedLinkPriority patterns url ≤ 180) ∧
    (anySub avoidKws (lowerStr url) = true →
      calcEnhancedLinkPriority patterns url = depthAdjust (urlPathDepth url)) := by
  refine ⟨⟨?_, ?_⟩, ?_⟩
  · simp only [calcEnhancedLinkPriority]
    split_ifs <;> omega
  · simp only [calcEnhancedLinkPriority]
    split_ifs <;> omega
  · intro h
    simp only [calcEnhancedLinkPriority, depthAdjust, h, eq_self_iff_true,
      if_true]
    split_ifs <;> omega

/-- Witness for `link_priority_range_and_avoid` at a concrete avoid-list
URL. -/
theorem link_priority_range_and_avoid_witness :
    (-5 ≤ calcEnhancedLinkPriority [] "https://x.com/blog/post".toList ∧
      calcEnhancedLinkPriority [] "https://x.com/blog/post".toList ≤ 180) ∧
    calcEnhancedLinkPriority [] "https://x.com/blog/post".toList =
      depthAdjust (urlPathDepth "https://x.com/blog/post".toList) :=
  ⟨(link_priority_range_and_avoid [] _).1,
   (link_priority_range_and_avoid [] _).2 (by decide)⟩

/-- 1 ≤ a sum of four 0/1 indicator terms exactly when some indicator is
set. -/
theorem one_le_indicator_count (a b c d : Bool) :
    (1 ≤ ((if a then 1 else 0) + (if b then 1 else 0) + (if c then 1 else 0) +
      (if d then 1 else 0) : Nat)) ↔ (a || b || c || d) = true := by
  cases a <;> cases b <;> cases c <;> cases d <;> simp

/-- C9 fails on the code: a candidate with all four indicators present but
HTML shorter than 500 characters is rejected by `_validate_product_data`. -/
theorem validate_rejects_short_html :
    specIndicatorPresent shortHtmlCandidate = true ∧
    validateProductData shortHtmlCandidate = false := by
  constructor
  · decide
  · decide

/-- The validation heuristic accepts exactly when the candidate has a
non-empty URL, HTML of at least 500 characters, and at least one of the four
indicators; and a rejected candidate is dropped with its classification
downgraded to OTHER. -/
theorem validate_product_iff (p : RawProduct) :
    (validateProductData p = true ↔
      p.url ≠ [] ∧ 500 ≤ p.html.length ∧ specIndicatorPresent p = true) ∧
    (validateProductData p = false → productBranch p = (none, PageType.OTHER)) := by
  constructor
  · unfold validateProductData
    split_ifs with h1 h2
    · simp only [Bool.false_eq_true, false_iff]
      intro h
      exact h.1 h1
    · simp only [Bool.false_eq_true, false_iff]
      intro h
      rcases h2 with he | hl
      · rw [he] at h
        exact absurd h.2.1 (by simp)
      · omega
    · push_neg at h2
      simp only [decide_eq_true_eq, specIndicatorPresent]
      rw [show indicatorsFound p =
        (if priceIndicator (lowerStr p.html) then 1 else 0) +
        (if ctaIndicator (lowerStr p.html) then 1 else 0) +
        (if productWordIndicator (lowerStr p.html) then 1 else 0) +
        (if imageIndicator p then 1 else 0) from rfl,
        one_le_indicator_count]
      constructor
      · intro h
        exact ⟨h1, by omega, h⟩
      · intro h
        exact h.2.2
  · intro h
    unfold productBranch
    rw [h]
    simp

/-- Witness for `validate_product_iff`: the rejected short-HTML candidate is
dropped and downgraded to OTHER. -/
theorem validate_product_iff_witness :
    productBranch shortHtmlCandidate = (none, PageType.OTHER) :=
  (validate_product_iff shortHtmlCandidate).2 (by decide)

/-- Updating one list element changes a `countP` by the difference of the
predicate on the old and new values. -/
theorem countP_set {α : Type} (p : α → Bool) (l : List α) (i : Nat) (w w' : α)
    (h : l[i]? = some w) :
    (l.set i w').countP p + (if p w then 1 else 0) =
      l.countP p + (if p w' then 1 else 0) := by
  induction l generalizing i with
  | nil => simp at h
  | cons a t ih =>
    cases i with
    | zero =>
      simp only [List.getElem?_cons_zero, Option.some_inj] at h
      subst h
      rw [List.set_cons_zero, List.countP_cons, List.countP_cons]
      omega
    | succ n =>
      simp only [List.getElem?_cons_succ] at h
      rw [List.set_cons_succ, List.countP_cons, List.countP_cons]
      have := ih n h
      omega

/-- The crawl-pool invariant holds initially. -/
theorem crawlInv_init (urls : List Str) : CrawlInv (initCrawlState urls) := by
  refine ⟨List.nodup_nil, ?_⟩
  intro u
  have hz : activeCount u (initCrawlState urls) = 0 := by
    apply List.countP_eq_zero.mpr
    intro w hw
    simp only [initCrawlState, List.mem_map] at hw
    obtain ⟨x, _, rfl⟩ := hw
    simp [isActiveOn]
  rw [hz]
  exact Nat.zero_le _

/-- Every interleaving step preserves the crawl-pool invariant: the gate is
an atomic check-and-set, so a worker goes past it only by inserting a URL
not yet in the visited set. -/
theorem crawlInv_step (maxPages : Nat) (st : CrawlState) (a : CrawlAct)
    (h : CrawlInv st) : CrawlInv (crawlStep maxPages st a) := by
  obtain ⟨hnd, hcnt⟩ := h
  cases a with
  | gate i =>
    simp only [crawlStep]
    cases hw : st.workers[i]? with
    | none => exact ⟨hnd, hcnt⟩
    | some w =>
      dsimp only
      by_cases hp : w.phase = .pending
      · rw [if_pos hp]
        by_cases hv : w.url ∈ st.visited ∨ maxPages ≤ st.visited.length
        · rw [if_pos hv]
          refine ⟨hnd, ?_⟩
          intro u
          have hset := countP_set (isActiveOn u) st.workers i w
            { w with phase := .dropped } hw
          have h1 : isActiveOn u w = false := by
            simp [isActiveOn, hp]
          have h2 : isActiveOn u { w with phase := CrawlPhase.dropped } = false := by
            simp [isActiveOn]
          rw [h1, h2] at hset
          norm_num at hset
          have := hcnt u
          simp only [activeCount] at *
          omega
        · rw [if_neg hv]
          by_cases hskip : shouldSkipUrl w.url = true
          · rw [if_pos hskip]
            refine ⟨hnd, ?_⟩
            intro u
            have hset := countP_set (isActiveOn u) st.workers i w
              { w with phase := .dropped } hw
            have h1 : isActiveOn u w = false := by
              simp [isActiveOn, hp]
            have h2 : isActiveOn u { w with phase := CrawlPhase.dropped } = false := by
              simp [isActiveOn]
            rw [h1, h2] at hset
            have := hcnt u
            simp only [activeCount] at *
            omega
          · rw [if_neg hskip]
            push_neg at hv
            obtain ⟨hnotmem, _⟩ := hv
            refine ⟨List.nodup_cons.mpr ⟨hnotmem, hnd⟩, ?_⟩
            intro u
            have hset := countP_set (isActiveOn u) st.workers i w
              { w with phase := .passed } hw
            have h1 : isActiveOn u w = false := by
              simp [isActiveOn, hp]
            rw [h1] at hset
            norm_num at hset
            have hold := hcnt u
            simp only [activeCount] at *
            by_cases hu : u = w.url
            · subst hu
              have h2 : isActiveOn w.url { w with phase := CrawlPhase.passed } = true := by
                simp [isActiveOn]
              rw [h2] at hset
              norm_num at hset
              rw [if_neg hnotmem] at hold
              have hmem : w.url ∈ w.url :: st.visited := List.mem_cons_self _ _
              rw [if_pos hmem]
              omega
            · have h2 : isActiveOn u { w with phase := CrawlPhase.passed } = false := by
                simp [isActiveOn, Ne.symm hu]
              rw [h2] at hset
              norm_num at hset
              have hiff : u ∈ w.url :: st.visited ↔ u ∈ st.visited := by
                simp [List.mem_cons, hu]
              simp only [hiff]
              omega
      · rw [if_neg hp]
        exact ⟨hnd, hcnt⟩
  | fetch i =>
    simp only [crawlStep]
    cases hw : st.workers[i]? with
    | none => exact ⟨hnd, hcnt⟩
    | some w =>
      dsimp only
      by_cases hp : w.phase = .passed
      · rw [if_pos hp]
        refine ⟨hnd, ?_⟩
        intro u
        have hset := countP_set (isActiveOn u) st.workers i w
          { w with phase := .fetched } hw
        have heq : isActiveOn u { w with phase := CrawlPhase.fetched } =
            isActiveOn u w := by
          simp [isActiveOn, hp]
        rw [heq] at hset
        have := hcnt u
        simp only [activeCount] at *
        omega
      · rw [if_neg hp]
        exact ⟨hnd, hcnt⟩

/-- The crawl-pool invariant holds after any run. -/
theorem crawlInv_run (maxPages : Nat) (urls : List Str)
    (acts : List CrawlAct) : CrawlInv (runCrawl maxPages urls acts) := by
  unfold runCrawl
  suffices h : ∀ st, CrawlInv st → CrawlInv (acts.foldl (crawlStep maxPages) st) by
    exact h _ (crawlInv_init urls)
  induction acts with
  | nil => intro st h; exact h
  | cons a rest ih =>
    intro st h
    exact ih _ (crawlInv_step maxPages st a h)

/-- C2: in every run of the crawl pool — any task URLs, any interleaving —
each URL enters the visited set at most once (the set is duplicate-free),
no URL is fetched by two workers, and a worker fetches a URL only after the
atomic check-and-set placed it in the visited set. -/
theorem crawl_no_url_fetched_twice (maxPages : Nat) (urls : List Str)
    (acts : List CrawlAct) :
    (runCrawl maxPages urls acts).visited.Nodup ∧
    (∀ u, fetchCount u (runCrawl maxPages urls acts) ≤ 1) ∧
    (∀ u, 1 ≤ fetchCount u (runCrawl maxPages urls acts) →
      u ∈ (runCrawl maxPages urls acts).visited) := by
  obtain ⟨hnd, hcnt⟩ := crawlInv_run maxPages urls acts
  have hmono : ∀ u, fetchCount u (runCrawl maxPages urls acts) ≤
      activeCount u (runCrawl maxPages urls acts) := by
    intro u
    apply List.countP_mono_left
    intro w _ hfw
    simp only [isFetchOf, decide_eq_true_eq] at hfw
    simp [isActiveOn, hfw.1, hfw.2]
  refine ⟨hnd, ?_, ?_⟩
  · intro u
    have h1 := hcnt u
    have h2 := hmono u
    by_cases hm : u ∈ (runCrawl maxPages urls acts).visited
    · rw [if_pos hm] at h1
      omega
    · rw [if_neg hm] at h1
      omega
  · intro u hfetch
    have h1 := hcnt u
    have h2 := hmono u
    by_cases hm : u ∈ (runCrawl maxPages urls acts).visited
    · exact hm
    · rw [if_neg hm] at h1
      omega

/-- A list with an element satisfying `p` at index `i` has positive
`countP`. -/
theorem countP_pos_of_getElem {α : Type} (p : α → Bool) (l : List α) (i : Nat)
    (w : α) (hw : l[i]? = some w) (hp : p w = true) : 1 ≤ l.countP p := by
  obtain ⟨hlt, rfl⟩ := List.getElem?_eq_some.mp hw
  have hmem : l[i] ∈ l := List.getElem_mem hlt
  have := List.countP_pos_iff.mpr ⟨l[i], hmem, hp⟩
  omega

/-- The orchestrator invariant holds initially (for a positive cap). -/
theorem prodInv_init (cap limit n : Nat) (hcap : 0 < cap) :
    ProdInv cap limit (initProdState n) := by
  constructor
  · have hz : holders (initProdState n) = 0 := by
      apply List.countP_eq_zero.mpr
      intro w hw
      simp only [initProdState, List.mem_replicate] at hw
      rw [hw.2]
      simp [holdsSlot]
    rw [hz]
    exact Nat.zero_le _
  · left
    exact hcap

/-- Every interleaving step preserves the orchestrator invariant: a worker
passes the cap gate only while the stored count is below the cap, and never
more than `limit` workers hold semaphore slots. -/
theorem prodInv_step (cap limit : Nat) (st : ProdState) (a : ProdAct)
    (hcap : 0 < cap) (h : ProdInv cap limit st) :
    ProdInv cap limit (prodStep cap limit st a) := by
  obtain ⟨hh, hd⟩ := h
  have hPH : passedCount st ≤ holders st := by
    apply List.countP_mono_left
    intro w _ hw
    simp only [decide_eq_true_eq] at hw
    subst hw
    rfl
  cases a with
  | acquire i =>
    simp only [prodStep]
    cases hw : st.workers[i]? with
    | none => exact ⟨hh, hd⟩
    | some w =>
      cases w with
      | ready =>
        dsimp only
        split_ifs with hlim
        · have hs1 := countP_set holdsSlot st.workers i .ready .acquired hw
          have hs2 := countP_set (fun w => decide (w = ProdPhase.passed))
            st.workers i .ready .acquired hw
          simp only [holdsSlot] at hs1
          simp at hs1 hs2
          simp only [ProdInv, holders, passedCount] at hh hPH hlim hd ⊢
          exact ⟨by omega, by omega⟩
        · exact ⟨hh, hd⟩
      | acquired => exact ⟨hh, hd⟩
      | passed => exact ⟨hh, hd⟩
      | done o => exact ⟨hh, hd⟩
  | gate i =>
    simp only [prodStep]
    cases hw : st.workers[i]? with
    | none => exact ⟨hh, hd⟩
    | some w =>
      cases w with
      | ready => exact ⟨hh, hd⟩
      | acquired =>
        dsimp only
        split_ifs with hcap2
        · have hs1 := countP_set holdsSlot st.workers i .acquired
            (.done .aborted) hw
          have hs2 := countP_set (fun w => decide (w = ProdPhase.passed))
            st.workers i .acquired (.done .aborted) hw
          simp only [holdsSlot] at hs1
          simp at hs1 hs2
          simp only [ProdInv, holders, passedCount] at hh hPH hd ⊢
          exact ⟨by omega, by omega⟩
        · have hs1 := countP_set holdsSlot st.workers i .acquired .passed hw
          have hs2 := countP_set (fun w => decide (w = ProdPhase.passed))
            st.workers i .acquired .passed hw
          simp only [holdsSlot] at hs1
          simp at hs1 hs2
          simp only [ProdInv, holders, passedCount] at hh hPH hd ⊢
          exact ⟨by omega, by omega⟩
      | passed => exact ⟨hh, hd⟩
      | done o => exact ⟨hh, hd⟩
  | finStore i =>
    simp only [prodStep]
    cases hw : st.workers[i]? with
    | none => exact ⟨hh, hd⟩
    | some w =>
      cases w with
      | ready => exact ⟨hh, hd⟩
      | acquired => exact ⟨hh, hd⟩
      | passed =>
        dsimp only
        have hs1 := countP_set holdsSlot st.workers i .passed
          (.done .stored) hw
        have hs2 := countP_set (fun w => decide (w = ProdPhase.passed))
          st.workers i .passed (.done .stored) hw
        have hpos := countP_pos_of_getElem
          (fun w => decide (w = ProdPhase.passed)) st.workers i .passed hw
          (by simp)
        simp only [holdsSlot] at hs1
        simp at hs1 hs2
        simp only [ProdInv, holders, passedCount] at hh hPH hd hpos ⊢
        exact ⟨by omega, by omega⟩
      | done o => exact ⟨hh, hd⟩
  | finSkip i =>
    simp only [prodStep]
    cases hw : st.workers[i]? with
    | none => exact ⟨hh, hd⟩
    | some w =>
      cases w with
      | ready => exact ⟨hh, hd⟩
      | acquired => exact ⟨hh, hd⟩
      | passed =>
        dsimp only
        have hs1 := countP_set holdsSlot st.workers i .passed
          (.done .skipped) hw
        have hs2 := countP_set (fun w => decide (w = ProdPhase.passed))
          st.workers i .passed (.done .skipped) hw
        simp only [holdsSlot] at hs1
        simp at hs1 hs2
        simp only [ProdInv, holders, passedCount] at hh hPH hd ⊢
        exact ⟨by omega, by omega⟩
      | done o => exact ⟨hh, hd⟩
  | finPersistFail i =>
    simp only [prodStep]
    cases hw : st.workers[i]? with
    | none => exact ⟨hh, hd⟩
    | some w =>
      cases w with
      | ready => exact ⟨hh, hd⟩
      | acquired => exact ⟨hh, hd⟩
      | passed =>
        dsimp only
        have hs1 := countP_set holdsSlot st.workers i .passed
          (.done .persistFailed) hw
        have hs2 := countP_set (fun w => decide (w = ProdPhase.passed))
          st.workers i .passed (.done .persistFailed) hw
        simp only [holdsSlot] at hs1
        simp at hs1 hs2
        simp only [ProdInv, holders, passedCount] at hh hPH hd ⊢
        exact ⟨by omega, by omega⟩
      | done o => exact ⟨hh, hd⟩
  | finFail i =>
    simp only [prodStep]
    cases hw : st.workers[i]? with
    | none => exact ⟨hh, hd⟩
    | some w =>
      cases w with
      | ready => exact ⟨hh, hd⟩
      | acquired => exact ⟨hh, hd⟩
      | passed =>
        dsimp only
        have hs1 := countP_set holdsSlot st.workers i .passed
          (.done .failed) hw
        have hs2 := countP_set (fun w => decide (w = ProdPhase.passed))
          st.workers i .passed (.done .failed) hw
        simp only [holdsSlot] at hs1
        simp at hs1 hs2
        simp only [ProdInv, holders, passedCount] at hh hPH hd ⊢
        exact ⟨by omega, by omega⟩
      | done o => exact ⟨hh, hd⟩

/-- The orchestrator invariant holds after any run (for a positive cap). -/
theorem prodInv_run (cap limit n : Nat) (acts : List ProdAct)
    (hcap : 0 < cap) : ProdInv cap limit (runProd cap limit n acts) := by
  unfold runProd
  suffices h : ∀ st, ProdInv cap limit st →
      ProdInv cap limit (acts.foldl (prodStep cap limit) st) by
    exact h _ (prodInv_init cap limit n hcap)
  induction acts with
  | nil => intro st h; exact h
  | cons a rest ih =>
    intro st h
    exact ih _ (prodInv_step cap limit st a hcap h)

/-- `takeWhile`/`dropWhile` on an append whose first part satisfies the
predicate and whose second part starts with a failing element (or is
empty). -/
theorem span_append_of_all {α : Type} (p : α → Bool) (l₁ l₂ : List α)
    (h1 : ∀ a ∈ l₁, p a = true)
    (h2 : ∀ c, l₂.head? = some c → p c = false) :
    (l₁ ++ l₂).takeWhile p = l₁ ∧ (l₁ ++ l₂).dropWhile p = l₂ := by
  induction l₁ with
  | nil =>
    simp only [List.nil_append]
    cases l₂ with
    | nil => simp
    | cons c t =>
      have hc := h2 c rfl
      rw [List.takeWhile_cons, List.dropWhile_cons, hc]
      simp
  | cons a t ih =>
    have ha := h1 a (List.mem_cons_self _ _)
    have iht := ih (fun x hx => h1 x (List.mem_cons_of_mem _ hx))
    rw [List.cons_append, List.takeWhile_cons, List.dropWhile_cons, ha]
    simp only [if_true]
    exact ⟨by rw [iht.1], iht.2⟩

/-- `takeWhile`/`dropWhile` on a list all of whose elements satisfy the
predicate. -/
theorem span_all {α : Type} (p : α → Bool) (l : List α)
    (h : ∀ a ∈ l, p a = true) :
    l.takeWhile p = l ∧ l.dropWhile p = [] := by
  have := span_append_of_all p l [] h (by intro c hc; simp at hc)
  simpa using this

/-- `dropWhile` is idempotent. -/
theorem dropWhile_idem {α : Type} (p : α → Bool) (l : List α) :
    (l.dropWhile p).dropWhile p = l.dropWhile p := by
  induction l with
  | nil => simp
  | cons a t ih =>
    rw [List.dropWhile_cons]
    split_ifs with h
    · exact ih
    · rw [List.dropWhile_cons, if_neg h]

/-- A list is its right-stripped form followed by the stripped trailing
slashes. -/
theorem rstripSlash_append (p : Str) :
    rstripSlash p ++ (p.reverse.takeWhile (fun c => c = '/')).reverse = p := by
  unfold rstripSlash
  rw [← List.reverse_append, List.takeWhile_append_dropWhile,
    List.reverse_reverse]

/-- Right-stripping slashes is idempotent. -/
theorem rstripSlash_idem (p : Str) :
    rstripSlash (rstripSlash p) = rstripSlash p := by
  unfold rstripSlash
  rw [List.reverse_reverse, dropWhile_idem]

/-- Right-stripping keeps only characters of the original path. -/
theorem mem_rstripSlash {p : Str} {a : Char} (h : a ∈ rstripSlash p) :
    a ∈ p := by
  rw [← rstripSlash_append p]
  exact List.mem_append_left _ h

/-- Character facts about the legal scheme characters, checked by
evaluation: lower-casing maps them into themselves idempotently, preserves
letters, and none of them is a URL delimiter or an unsafe byte. -/
theorem schemeChars_facts :
    ∀ c ∈ schemeChars,
      Char.toLower c ∈ schemeChars ∧
      Char.toLower (Char.toLower c) = Char.toLower c ∧
      (c.isAlpha = true → (Char.toLower c).isAlpha = true) ∧
      isUnsafeUrlByte c = false ∧ isC0OrSpace c = false ∧
      c ≠ ':' ∧ netlocDelim c = false ∧ c ≠ '?' ∧ c ≠ '#' ∧ c ≠ ';' := by
  decide

/-- Lower-casing a valid scheme is idempotent. -/
theorem lowerStr_idem_of_scheme {s : Str} (h : ∀ c ∈ s, c ∈ schemeChars) :
    lowerStr (lowerStr s) = lowerStr s := by
  unfold lowerStr
  rw [List.map_map]
  apply List.map_congr_left
  intro a ha
  exact (schemeChars_facts a (h a ha)).2.1

/-- `urlsplit` on a reassembled absolute URL with well-formed components
recovers the components (with the scheme lower-cased). -/
theorem urlsplit_assemble (s n p q f : Str)
    (hs1 : s ≠ [])
    (hs2 : (s.headD ' ').isAlpha = true)
    (hs3 : ∀ c ∈ s, c ∈ schemeChars)
    (hn : ∀ c ∈ n, isUnsafeUrlByte c = false ∧ netlocDelim c = false)
    (hp : ∀ c ∈ p, isUnsafeUrlByte c = false ∧ c ≠ '?' ∧ c ≠ '#')
    (hp0 : p = [] ∨ ∃ t, p = '/' :: t)
    (hq : ∀ c ∈ q, isUnsafeUrlByte c = false ∧ c ≠ '#')
    (hf : ∀ c ∈ f, isUnsafeUrlByte c = false) :
    urlsplitM (assembleUrl s n p q f) = ⟨lowerStr s, n, p, q, f⟩ := by
  have hcolon : "://".toList = [':', '/', '/'] := rfl
  set qv : Str := if q ≠ [] then '?' :: q else [] with hqv
  set fv : Str := if f ≠ [] then '#' :: f else [] with hfv
  have hA : assembleUrl s n p q f =
      s ++ (':' :: '/' :: '/' :: (n ++ (p ++ (qv ++ fv)))) := by
    simp only [assembleUrl, hcolon, List.append_assoc, ← hqv, ← hfv]
    rfl
  have hqvplain : ∀ a ∈ qv, isUnsafeUrlByte a = false ∧ a ≠ '#' := by
    intro a ha
    rw [hqv] at ha
    by_cases hqe : q = []
    · simp [hqe] at ha
    · simp [hqe] at ha
      rcases ha with rfl | ha
      · exact ⟨by decide, by decide⟩
      · exact ⟨(hq a ha).1, (hq a ha).2⟩
  have hfvplain : ∀ a ∈ fv, isUnsafeUrlByte a = false := by
    intro a ha
    rw [hfv] at ha
    by_cases hfe : f = []
    · simp [hfe] at ha
    · simp [hfe] at ha
      rcases ha with rfl | ha
      · decide
      · exact hf a ha
  have hplainA : ∀ a ∈ assembleUrl s n p q f, isUnsafeUrlByte a = false := by
    intro a ha
    rw [hA] at ha
    rcases List.mem_append.mp ha with ha | ha
    · exact (schemeChars_facts a (hs3 a ha)).2.2.2.1
    · rcases ha with _ | ⟨_, ha⟩
      · decide
      rcases ha with _ | ⟨_, ha⟩
      · decide
      rcases ha with _ | ⟨_, ha⟩
      · decide
      rcases List.mem_append.mp ha with ha | ha
      · exact (hn a ha).1
      rcases List.mem_append.mp ha with ha | ha
      · exact (hp a ha).1
      rcases List.mem_append.mp ha with ha | ha
      · exact (hqvplain a ha).1
      · exact hfvplain a ha
  obtain ⟨c0, s0, rfl⟩ : ∃ c0 s0, s = c0 :: s0 := by
    cases s with
    | nil => exact absurd rfl hs1
    | cons a t => exact ⟨a, t, rfl⟩
  have hc0 : c0 ∈ schemeChars := hs3 c0 (List.mem_cons_self _ _)
  have hsan : sanitizeUrl (assembleUrl (c0 :: s0) n p q f) =
      assembleUrl (c0 :: s0) n p q f := by
    unfold sanitizeUrl
    have hcons : assembleUrl (c0 :: s0) n p q f =
        c0 :: (s0 ++ (':' :: '/' :: '/' :: (n ++ (p ++ (qv ++ fv))))) := by
      rw [hA]
      rfl
    rw [hcons, List.dropWhile_cons,
      if_neg (by simp [(schemeChars_facts c0 hc0).2.2.2.2.1])]
    rw [← hcons]
    exact List.filter_eq_self.mpr (fun a ha => by simp [hplainA a ha])
  set body : Str := n ++ (p ++ (qv ++ fv)) with hbody
  have hsp := span_append_of_all (fun c => decide (c ≠ ':')) (c0 :: s0)
    (':' :: '/' :: '/' :: body)
    (fun a ha => by simp [(schemeChars_facts a (hs3 a ha)).2.2.2.2.2.1])
    (fun c hc => by
      simp only [List.head?_cons, Option.some_inj] at hc
      subst hc
      simp)
  have hsch : schemeSplit (assembleUrl (c0 :: s0) n p q f) =
      (lowerStr (c0 :: s0), '/' :: '/' :: body) := by
    unfold schemeSplit
    rw [hA]
    rw [hsp.1]
    rw [if_pos ?side]
    case side =>
      refine ⟨?_, by simp, hs2, ?_⟩
      · simp only [List.length_append, List.length_cons]
        omega
      · exact List.all_eq_true.mpr (fun c hc => by simp [hs3 c hc])
    have hlen : (c0 :: s0).length + 1 = ((c0 :: s0) ++ [':']).length := by
      simp
    rw [hlen, show (c0 :: s0) ++ (':' :: '/' :: '/' :: body) =
      ((c0 :: s0) ++ [':']) ++ ('/' :: '/' :: body) from by simp,
      List.drop_left]
  have hnet := span_append_of_all (fun c => !netlocDelim c) n (p ++ (qv ++ fv))
    (fun a ha => by simp [(hn a ha).2])
    (fun c hc => by
      rcases hp0 with rfl | ⟨t, rfl⟩
      · simp only [List.nil_append] at hc
        rw [hqv, hfv] at hc
        by_cases hqe : q = []
        · by_cases hfe : f = []
          · simp [hqe, hfe] at hc
          · simp only [hqe, hfe, ne_eq, not_true_eq_false, if_false,
              not_false_eq_true, if_true, List.nil_append,
              List.head?_cons, Option.some_inj] at hc
            subst hc
            decide
        · simp only [hqe, ne_eq, not_false_eq_true, if_true,
            List.cons_append, List.head?_cons, Option.some_inj] at hc
          subst hc
          decide
      · simp only [List.cons_append, List.head?_cons, Option.some_inj] at hc
        subst hc
        decide)
  have hfrag := span_append_of_all (fun c => decide (c ≠ '#')) (p ++ qv) fv
    (fun a ha => by
      rcases List.mem_append.mp ha with ha | ha
      · simp [(hp a ha).2.2]
      · simp [(hqvplain a ha).2])
    (fun c hc => by
      rw [hfv] at hc
      by_cases hfe : f = []
      · simp [hfe] at hc
      · simp only [hfe, ne_eq, not_false_eq_true, if_true,
          List.head?_cons, Option.some_inj] at hc
        subst hc
        simp)
  have hquer := span_append_of_all (fun c => decide (c ≠ '?')) p qv
    (fun a ha => by simp [(hp a ha).2.1])
    (fun c hc => by
      rw [hqv] at hc
      by_cases hqe : q = []
      · simp [hqe] at hc
      · simp only [hqe, ne_eq, not_false_eq_true, if_true,
          List.head?_cons, Option.some_inj] at hc
        subst hc
        simp)
  simp only [urlsplitM]
  rw [hsan, hsch]
  dsimp only
  rw [if_pos (by rfl)]
  dsimp only [List.drop_succ_cons, List.drop_zero]
  rw [hbody]
  rw [hnet.1, hnet.2]
  rw [show p ++ (qv ++ fv) = (p ++ qv) ++ fv from by simp]
  rw [hfrag.1, hfrag.2, hquer.1, hquer.2]
  have hq1 : qv.drop 1 = q := by
    rw [hqv]
    by_cases hqe : q = []
    · simp [hqe]
    · simp [hqe]
  have hf1 : fv.drop 1 = f := by
    rw [hfv]
    by_cases hfe : f = []
    · simp [hfe]
    · simp [hfe]
  rw [hq1, hf1]

/-- `_clean_url` on a well-formed absolute URL whose path takes no
parameter split: lower-cases the scheme, right-strips slashes from the
path, drops the fragment and keeps the query. -/
theorem clean_assemble (s n p q f : Str)
    (hs1 : s ≠ [])
    (hs2 : (s.headD ' ').isAlpha = true)
    (hs3 : ∀ c ∈ s, c ∈ schemeChars)
    (hn : ∀ c ∈ n, isUnsafeUrlByte c = false ∧ netlocDelim c = false)
    (hp : ∀ c ∈ p, isUnsafeUrlByte c = false ∧ c ≠ '?' ∧ c ≠ '#')
    (hp0 : p = [] ∨ ∃ t, p = '/' :: t)
    (hq : ∀ c ∈ q, isUnsafeUrlByte c = false ∧ c ≠ '#')
    (hf : ∀ c ∈ f, isUnsafeUrlByte c = false)
    (hpar : paramsSplitIfUses (lowerStr s) p = (p, [])) :
    cleanUrl (assembleUrl s n p q f) =
      assembleUrl (lowerStr s) n (rstripSlash p) q [] := by
  unfold cleanUrl urlparseM
  rw [urlsplit_assemble s n p q f hs1 hs2 hs3 hn hp hp0 hq hf]
  dsimp only
  rw [hpar]
  simp [assembleUrl]

/-- URL normalization on an absolute URL with well-formed components
produces the scheme-lowered, slash-stripped, fragment-free form with the
query preserved, and — provided neither the path nor its slash-stripped
form takes a parameter split at the `;` after its last `/` — normalizing
again returns it unchanged. -/
theorem clean_url_idempotent_without_params (s n p q f : Str)
    (hs1 : s ≠ [])
    (hs2 : (s.headD ' ').isAlpha = true)
    (hs3 : ∀ c ∈ s, c ∈ schemeChars)
    (hn : ∀ c ∈ n, isUnsafeUrlByte c = false ∧ netlocDelim c = false)
    (hp : ∀ c ∈ p, isUnsafeUrlByte c = false ∧ c ≠ '?' ∧ c ≠ '#')
    (hp0 : p = [] ∨ ∃ t, p = '/' :: t)
    (hq : ∀ c ∈ q, isUnsafeUrlByte c = false ∧ c ≠ '#')
    (hf : ∀ c ∈ f, isUnsafeUrlByte c = false)
    (hpar1 : paramsSplitIfUses (lowerStr s) p = (p, []))
    (hpar2 : paramsSplitIfUses (lowerStr s) (rstripSlash p) =
      (rstripSlash p, [])) :
    cleanUrl (assembleUrl s n p q f) =
      assembleUrl (lowerStr s) n (rstripSlash p) q [] ∧
    cleanUrl (cleanUrl (assembleUrl s n p q f)) =
      cleanUrl (assembleUrl s n p q f) := by
  have h1 := clean_assemble s n p q f hs1 hs2 hs3 hn hp hp0 hq hf hpar1
  have hs1g : lowerStr s ≠ [] := by
    intro hcon
    exact hs1 (List.map_eq_nil_iff.mp hcon)
  have hs3g : ∀ c ∈ lowerStr s, c ∈ schemeChars := by
    intro c hc
    rcases List.mem_map.mp hc with ⟨a, ha, rfl⟩
    exact (schemeChars_facts a (hs3 a ha)).1
  have hs2g : ((lowerStr s).headD ' ').isAlpha = true := by
    cases s with
    | nil => exact absurd rfl hs1
    | cons a t =>
      exact (schemeChars_facts a (hs3 a (List.mem_cons_self a t))).2.2.1 hs2
  have hrs : rstripSlash p = [] ∨ ∃ t, rstripSlash p = '/' :: t := by
    rcases hp0 with rfl | ⟨t, rfl⟩
    · left
      rfl
    · cases hr : rstripSlash ('/' :: t) with
      | nil => exact Or.inl rfl
      | cons c t2 =>
        right
        have happ := rstripSlash_append ('/' :: t)
        rw [hr] at happ
        have hc : c = '/' := by
          have := congrArg List.head? happ
          simpa using this
        subst hc
        exact ⟨t2, rfl⟩
  have hpg : ∀ c ∈ rstripSlash p,
      isUnsafeUrlByte c = false ∧ c ≠ '?' ∧ c ≠ '#' :=
    fun c hc => hp c (mem_rstripSlash hc)
  have hparg : paramsSplitIfUses (lowerStr (lowerStr s)) (rstripSlash p) =
      (rstripSlash p, []) := by
    rw [lowerStr_idem_of_scheme hs3]
    exact hpar2
  have h2 := clean_assemble (lowerStr s) n (rstripSlash p) q []
    hs1g hs2g hs3g hn hpg hrs hq
    (fun c hc => absurd hc (List.not_mem_nil c)) hparg
  refine ⟨h1, ?_⟩
  rw [h1, h2, lowerStr_idem_of_scheme hs3, rstripSlash_idem]

/-- Each step keeps the error counter equal to the number of workers that
finished with a pipeline exception. -/
theorem errors_step (cap limit : Nat) (st : ProdState) (a : ProdAct)
    (h : st.errors = countOutcome .failed st) :
    (prodStep cap limit st a).errors =
      countOutcome .failed (prodStep cap limit st a) := by
  cases a with
  | acquire i =>
    simp only [prodStep]
    cases hw : st.workers[i]? with
    | none => exact h
    | some w =>
      cases w with
      | ready =>
        dsimp only
        split_ifs with hlim
        · have hs := countP_set (fun w => decide (w = ProdPhase.done .failed))
            st.workers i .ready .acquired hw
          simp at hs
          simp only [countOutcome] at h ⊢
          omega
        · exact h
      | acquired => exact h
      | passed => exact h
      | done o => exact h
  | gate i =>
    simp only [prodStep]
    cases hw : st.workers[i]? with
    | none => exact h
    | some w =>
      cases w with
      | ready => exact h
      | acquired =>
        dsimp only
        split_ifs with hcap2
        · have hs := countP_set (fun w => decide (w = ProdPhase.done .failed))
            st.workers i .acquired (.done .aborted) hw
          simp at hs
          simp only [countOutcome] at h ⊢
          omega
        · have hs := countP_set (fun w => decide (w = ProdPhase.done .failed))
            st.workers i .acquired .passed hw
          simp at hs
          simp only [countOutcome] at h ⊢
          omega
      | passed => exact h
      | done o => exact h
  | finStore i =>
    simp only [prodStep]
    cases hw : st.workers[i]? with
    | none => exact h
    | some w =>
      cases w with
      | ready => exact h
      | acquired => exact h
      | passed =>
        dsimp only
        have hs := countP_set (fun w => decide (w = ProdPhase.done .failed))
          st.workers i .passed (.done .stored) hw
        simp at hs
        simp only [countOutcome] at h ⊢
        omega
      | done o => exact h
  | finSkip i =>
    simp only [prodStep]
    cases hw : st.workers[i]? with
    | none => exact h
    | some w =>
      cases w with
      | ready => exact h
      | acquired => exact h
      | passed =>
        dsimp only
        have hs := countP_set (fun w => decide (w = ProdPhase.done .failed))
          st.workers i .passed (.done .skipped) hw
        simp at hs
        simp only [countOutcome] at h ⊢
        omega
      | done o => exact h
  | finPersistFail i =>
    simp only [prodStep]
    cases hw : st.workers[i]? with
    | none => exact h
    | some w =>
      cases w with
      | ready => exact h
      | acquired => exact h
      | passed =>
        dsimp only
        have hs := countP_set (fun w => decide (w = ProdPhase.done .failed))
          st.workers i .passed (.done .persistFailed) hw
        simp at hs
        simp only [countOutcome] at h ⊢
        omega
      | done o => exact h
  | finFail i =>
    simp only [prodStep]
    cases hw : st.workers[i]? with
    | none => exact h
    | some w =>
      cases w with
      | ready => exact h
      | acquired => exact h
      | passed =>
        dsimp only
        have hs := countP_set (fun w => decide (w = ProdPhase.done .failed))
          st.workers i .passed (.done .failed) hw
        simp at hs
        simp only [countOutcome] at h ⊢
        omega
      | done o => exact h

/-- After any run, the error counter equals the number of workers that
finished with a pipeline exception. -/
theorem errors_run (cap limit n : Nat) (acts : List ProdAct) :
    (runProd cap limit n acts).errors =
      countOutcome .failed (runProd cap limit n acts) := by
  unfold runProd
  suffices h : ∀ st, st.errors = countOutcome .failed st →
      (acts.foldl (prodStep cap limit) st).errors =
        countOutcome .failed (acts.foldl (prodStep cap limit) st) by
    apply h
    have hz : countOutcome .failed (initProdState n) = 0 := by
      apply List.countP_eq_zero.mpr
      intro w hw
      simp only [initProdState, List.mem_replicate] at hw
      rw [hw.2]
      simp
    rw [hz]
    rfl
  induction acts with
  | nil => intro st h; exact h
  | cons a rest ih =>
    intro st h
    exact ih _ (errors_step cap limit st a h)

/-- Membership after a set-insert of a product URL. -/
theorem mem_addProductUrl {acc : List Str} {u v : Str} :
    v ∈ addProductUrl acc u ↔ v ∈ acc ∨ v = u := by
  unfold addProductUrl
  split_ifs with h
  · constructor
    · exact Or.inl
    · rintro (hv | rfl)
      · exact hv
      · exact h
  · simp [List.mem_append]

/-- Set-insert preserves duplicate-freedom. -/
theorem nodup_addProductUrl {acc : List Str} (u : Str) (h : acc.Nodup) :
    (addProductUrl acc u).Nodup := by
  unfold addProductUrl
  split_ifs with hm
  · exact h
  · simp [List.nodup_append, h, hm]

/-- Membership in the product-collecting fold of `_crawl_nested_sitemap`. -/
theorem mem_nestedFold (pats : List Str) (locs : List Str) (acc : List Str)
    (v : Str) :
    v ∈ locs.foldl
        (fun a l => if looksLikeProductUrlSitemap pats l then addProductUrl a l
                    else a) acc ↔
      v ∈ acc ∨ (looksLikeProductUrlSitemap pats v = true ∧ v ∈ locs) := by
  induction locs generalizing acc with
  | nil => simp
  | cons l rest ih =>
    simp only [List.foldl_cons]
    by_cases hl : looksLikeProductUrlSitemap pats l = true
    · rw [if_pos hl, ih]
      constructor
      · rintro (hmem | ⟨hp, hrest⟩)
        · rcases mem_addProductUrl.mp hmem with hv | rfl
          · exact Or.inl hv
          · exact Or.inr ⟨hl, List.mem_cons_self _ _⟩
        · exact Or.inr ⟨hp, List.mem_cons_of_mem _ hrest⟩
      · rintro (hv | ⟨hp, hmem⟩)
        · exact Or.inl (mem_addProductUrl.mpr (Or.inl hv))
        · rcases List.mem_cons.mp hmem with rfl | hmem
          · exact Or.inl (mem_addProductUrl.mpr (Or.inr rfl))
          · exact Or.inr ⟨hp, hmem⟩
    · rw [if_neg hl, ih]
      constructor
      · rintro (hv | ⟨hp, hrest⟩)
        · exact Or.inl hv
        · exact Or.inr ⟨hp, List.mem_cons_of_mem _ hrest⟩
      · rintro (hv | ⟨hp, hmem⟩)
        · exact Or.inl hv
        · rcases List.mem_cons.mp hmem with rfl | hmem
          · exact absurd hp hl
          · exact Or.inr ⟨hp, hmem⟩

/-- The product-collecting fold preserves duplicate-freedom. -/
theorem nodup_nestedFold (pats : List Str) (locs : List Str) (acc : List Str)
    (h : acc.Nodup) :
    (locs.foldl
      (fun a l => if looksLikeProductUrlSitemap pats l then addProductUrl a l
                  else a) acc).Nodup := by
  induction locs generalizing acc with
  | nil => exact h
  | cons l rest ih =>
    simp only [List.foldl_cons]
    split_ifs with hl
    · exact ih _ (nodup_addProductUrl l h)
    · exact ih _ h

/-- Membership after a one-level nested-sitemap expansion. -/
theorem mem_crawlNestedSitemap (pats : List Str) (w : SitemapWorld)
    (acc : List Str) (u v : Str) :
    v ∈ crawlNestedSitemap pats w acc u ↔
      v ∈ acc ∨ (looksLikeProductUrlSitemap pats v = true ∧
        v ∈ (fetchSitemap w u).getD []) := by
  unfold crawlNestedSitemap
  cases h : fetchSitemap w u with
  | none => simp
  | some locs =>
    simp only [Option.getD_some]
    exact mem_nestedFold pats locs acc v

/-- Nested-sitemap expansion preserves duplicate-freedom. -/
theorem nodup_crawlNestedSitemap (pats : List Str) (w : SitemapWorld)
    (acc : List Str) (u : Str) (h : acc.Nodup) :
    (crawlNestedSitemap pats w acc u).Nodup := by
  unfold crawlNestedSitemap
  cases hf : fetchSitemap w u with
  | none => exact h
  | some locs => exact nodup_nestedFold pats locs acc h

/-- Membership in the collected set after processing one top-level sitemap's
`<loc>` entries. -/
theorem mem_processTopLocs (pats : List Str) (w : SitemapWorld)
    (locs : List Str) (acc : List Str) (v : Str) :
    v ∈ processTopLocs pats w acc locs ↔
      v ∈ acc ∨ ∃ l ∈ locs, locContributes pats w l v := by
  induction locs generalizing acc with
  | nil => simp [processTopLocs]
  | cons l rest ih =>
    unfold processTopLocs at ih ⊢
    simp only [List.foldl_cons, List.exists_mem_cons_iff]
    by_cases hs : sitemapLooking l = true
    · rw [if_pos hs, ih]
      have hC : locContributes pats w l v ↔
          (looksLikeProductUrlSitemap pats v = true ∧
            v ∈ (fetchSitemap w l).getD []) := by
        simp [locContributes, hs]
      rw [hC, mem_crawlNestedSitemap]
      tauto
    · rw [if_neg hs]
      have hC : locContributes pats w l v ↔
          (l = v ∧ looksLikeProductUrlSitemap pats v = true) := by
        simp [locContributes, hs, Bool.not_eq_true]
      rw [hC]
      by_cases hp : looksLikeProductUrlSitemap pats l = true
      · rw [if_pos hp, ih]
        constructor
        · rintro (hmem | ⟨l', hl', hC'⟩)
          · rcases mem_addProductUrl.mp hmem with hv | rfl
            · exact Or.inl hv
            · exact Or.inr (Or.inl ⟨rfl, hp⟩)
          · exact Or.inr (Or.inr ⟨l', hl', hC'⟩)
        · rintro (hv | (⟨rfl, hpv⟩ | ⟨l', hl', hC'⟩))
          · exact Or.inl (mem_addProductUrl.mpr (Or.inl hv))
          · exact Or.inl (mem_addProductUrl.mpr (Or.inr rfl))
          · exact Or.inr ⟨l', hl', hC'⟩
      · rw [if_neg hp, ih]
        constructor
        · rintro (hv | ⟨l', hl', hC'⟩)
          · exact Or.inl hv
          · exact Or.inr (Or.inr ⟨l', hl', hC'⟩)
        · rintro (hv | (⟨rfl, hpv⟩ | ⟨l', hl', hC'⟩))
          · exact Or.inl hv
          · exact absurd hpv hp
          · exact Or.inr ⟨l', hl', hC'⟩

/-- Processing one sitemap's `<loc>` entries preserves duplicate-freedom. -/
theorem nodup_processTopLocs (pats : List Str) (w : SitemapWorld)
    (locs : List Str) (acc : List Str) (h : acc.Nodup) :
    (processTopLocs pats w acc locs).Nodup := by
  induction locs generalizing acc with
  | nil => exact h
  | cons l rest ih =>
    unfold processTopLocs at ih ⊢
    simp only [List.foldl_cons]
    split_ifs with h1 h2
    · exact ih _ (nodup_crawlNestedSitemap pats w acc l h)
    · exact ih _ (nodup_addProductUrl l h)
    · exact ih _ h

/-- The probe loop preserves duplicate-freedom of the collected set. -/
theorem nodup_crawlSitemapGo (pats : List Str) (w : SitemapWorld)
    (cands : List Str) :
    ∀ acc : List Str, acc.Nodup → (crawlSitemapGo pats w cands acc).Nodup := by
  induction cands with
  | nil => intro acc h; exact h
  | cons c rest ih =>
    intro acc h
    unfold crawlSitemapGo
    cases hf : fetchSitemap w c with
    | none => exact ih acc h
    | some locs =>
      dsimp only
      split_ifs with h2
      · exact nodup_processTopLocs pats w locs acc h
      · exact ih _ (nodup_processTopLocs pats w locs acc h)

/-- A single successfully fetched candidate determines the collected set:
the probe loop returns after processing it (whether or not products were
found, since no candidates remain). -/
theorem crawlSitemap_single (pats : List Str) (w : SitemapWorld) (c : Str)
    (locs : List Str) (h : fetchSitemap w c = some locs) :
    crawlSitemap pats w [c] = processTopLocs pats w [] locs := by
  unfold crawlSitemap crawlSitemapGo
  rw [h]
  dsimp only
  split_ifs with h2
  · rfl
  · rfl

/-- C8 fails on the code: `deep_sitemap.xml` is a sitemap-looking entry of a
nested sitemap holding the discoverable product URL `/product/b`, yet the
collected set holds only `/product/a` — nested sitemap references are
followed one level deep, not to any depth. -/
theorem sitemap_misses_doubly_nested_product :
    crawlSitemap [] nestedSitemapWorld
        ["https://s.example.com/sitemap.xml".toList] =
      ["https://s.example.com/product/a".toList] ∧
    "https://s.example.com/product/b".toList ∉
      crawlSitemap [] nestedSitemapWorld
        ["https://s.example.com/sitemap.xml".toList] ∧
    sitemapLooking "https://s.example.com/deep_sitemap.xml".toList = true ∧
    fetchSitemap nestedSitemapWorld
        "https://s.example.com/deep_sitemap.xml".toList =
      some ["https://s.example.com/product/b".toList] ∧
    looksLikeProductUrlSitemap []
        "https://s.example.com/product/b".toList = true := by
  refine ⟨?_, ?_, ?_, ?_, ?_⟩ <;> decide

/-- Sitemap resolution expands nested sitemap references exactly one level
deep: the collected set is always duplicate-free, and for a successfully
fetched candidate sitemap it holds exactly the product-looking entries found
directly in it or in its directly referenced nested sitemaps. -/
theorem sitemap_one_level_exact (pats : List Str) (w : SitemapWorld) :
    (∀ cands, (crawlSitemap pats w cands).Nodup) ∧
    (∀ c locs, fetchSitemap w c = some locs →
      ∀ u, u ∈ crawlSitemap pats w [c] ↔
        ((u ∈ locs ∧ sitemapLooking u = false ∧
            looksLikeProductUrlSitemap pats u = true) ∨
         (∃ l ∈ locs, sitemapLooking l = true ∧
            looksLikeProductUrlSitemap pats u = true ∧
            u ∈ (fetchSitemap w l).getD []))) := by
  constructor
  · intro cands
    exact nodup_crawlSitemapGo pats w cands [] List.nodup_nil
  · intro c locs h u
    rw [crawlSitemap_single pats w c locs h, mem_processTopLocs]
    simp only [List.not_mem_nil, false_or]
    constructor
    · rintro ⟨l, hl, hC⟩
      rcases hC with ⟨hsm, hpu, hmem⟩ | ⟨hsm, rfl, hpu⟩
      · exact Or.inr ⟨l, hl, hsm, hpu, hmem⟩
      · exact Or.inl ⟨hl, hsm, hpu⟩
    · rintro (⟨hmem, hsm, hpu⟩ | ⟨l, hl, hsm, hpu, hmem⟩)
      · exact ⟨u, hmem, Or.inr ⟨hsm, rfl, hpu⟩⟩
      · exact ⟨l, hl, Or.inl ⟨hsm, hpu, hmem⟩⟩

/-- C1 fails on the code: with cap 1 and three concurrent workers, two
workers can both pass the entry gate while the stored count is still 0
(the bound is not re-checked before the storage write), and both store —
the stored count reaches 2, exceeding the cap. -/
theorem stored_cap_overshoot_race :
    ¬ (∀ acts : List ProdAct, (runProd 1 3 2 acts).stored ≤ 1) := by
  intro h
  have h2 := h [.acquire 0, .acquire 1, .gate 0, .gate 1,
    .finStore 0, .finStore 1]
  have h3 : (runProd 1 3 2 [.acquire 0, .acquire 1, .gate 0, .gate 1,
      .finStore 0, .finStore 1]).stored = 2 := by decide
  omega

/-- With a positive cap, every run stores at most
cap + concurrency-limit - 1 products: the gate admits a worker only while
the stored count is below the cap, and at most `limit` admitted workers can
be in flight, so the overshoot is bounded by `limit - 1`. -/
theorem stored_bounded_by_cap_plus_concurrency (cap limit n : Nat)
    (acts : List ProdAct) (hcap : 0 < cap) :
    (runProd cap limit n acts).stored ≤ cap + limit - 1 := by
  obtain ⟨hh, hd⟩ := prodInv_run cap limit n acts hcap
  have hPH : passedCount (runProd cap limit n acts) ≤
      holders (runProd cap limit n acts) := by
    apply List.countP_mono_left
    intro w _ hw
    simp only [decide_eq_true_eq] at hw
    subst hw
    rfl
  omega

/-- Witness for `stored_bounded_by_cap_plus_concurrency` on the overshoot
schedule: with cap 1 and limit 3, the race stores 2 ≤ 1 + 3 - 1. -/
theorem stored_bounded_by_cap_plus_concurrency_witness :
    (runProd 1 3 2 [.acquire 0, .acquire 1, .gate 0, .gate 1,
      .finStore 0, .finStore 1]).stored ≤ 1 + 3 - 1 :=
  stored_bounded_by_cap_plus_concurrency 1 3 2 _ (by decide)

/-- C7 fails on the code: a persistence failure inside `store_jewel` is
caught there and surfaces as a skip, so it is not counted in the run's
error statistics. -/
theorem persistence_failure_not_counted :
    ¬ (∀ (cap limit n : Nat) (acts : List ProdAct),
        countOutcome .persistFailed (runProd cap limit n acts) ≤
          (runProd cap limit n acts).errors) := by
  intro h
  have h2 := h 10 3 2 [.acquire 0, .gate 0, .finPersistFail 0]
  have h3 : countOutcome .persistFailed
      (runProd 10 3 2 [.acquire 0, .gate 0, .finPersistFail 0]) = 1 := by
    decide
  have h4 : (runProd 10 3 2 [.acquire 0, .gate 0, .finPersistFail 0]).errors
      = 0 := by decide
  omega

/-- The run's error counter counts exactly the candidates that failed with
an exception reaching `process_product`'s handler; a persistence failure
caught inside the storage agent is treated as a skip and not counted; in
both cases processing of the other candidates continues (the remaining
worker still stores its product). -/
theorem errors_count_pipeline_failures_only (cap limit n : Nat)
    (acts : List ProdAct) :
    (runProd cap limit n acts).errors =
      countOutcome .failed (runProd cap limit n acts) ∧
    (runProd 2 3 2 [.acquire 0, .gate 0, .finPersistFail 0,
        .acquire 1, .gate 1, .finStore 1]).stored = 1 ∧
    (runProd 2 3 2 [.acquire 0, .gate 0, .finFail 0,
        .acquire 1, .gate 1, .finStore 1]).errors = 1 ∧
    (runProd 2 3 2 [.acquire 0, .gate 0, .finFail 0,
        .acquire 1, .gate 1, .finStore 1]).stored = 1 := by
  refine ⟨errors_run cap limit n acts, ?_, ?_, ?_⟩ <;> decide

/-- Witness for `sitemap_one_level_exact` on the concrete nested world:
the full candidate probe yields a duplicate-free set, and `/product/a`
(one level down) is surfaced. -/
theorem sitemap_one_level_exact_witness :
    (crawlSitemap [] nestedSitemapWorld
      (mkSitemapCandidates "https://s.example.com".toList)).Nodup ∧
    "https://s.example.com/product/a".toList ∈
      crawlSitemap [] nestedSitemapWorld
        ["https://s.example.com/sitemap.xml".toList] :=
  ⟨(sitemap_one_level_exact [] nestedSitemapWorld).1 _,
   ((sitemap_one_level_exact [] nestedSitemapWorld).2
      "https://s.example.com/sitemap.xml".toList
      ["https://s.example.com/sub_sitemap.xml".toList] (by decide)
      "https://s.example.com/product/a".toList).mpr (by decide)⟩

/-- C3: the classifier's verdict is computed by exactly the spec's ordered
decision rule, and a non-"/product" URL with product score 45, category score
10 and card count 1 is classified as product. -/
theorem classify_decision_matches_spec_rule :
    (∀ (u : Str) (ps cs : Int) (pc : Nat),
       classifyDecision u ps cs pc = specDecisionRule u ps cs pc) ∧
    classifyDecision (lowerStr "https://shop.example.com/i/ring-5".toList)
      45 10 1 = .PRODUCT := by
  constructor
  · intro u ps cs pc; rfl
  · decide

/-- C10 fails on the code: `http://a/x;y/` is an absolute URL with
non-empty scheme and netloc, yet `_clean_url` is not idempotent on it — the
first pass strips the trailing slash, which exposes `;y` as path parameters
that the second pass's `urlparse` splits off. -/
theorem clean_url_not_idempotent :
    (urlsplitM "http://a/x;y/".toList).scheme = "http".toList ∧
    (urlsplitM "http://a/x;y/".toList).netloc = "a".toList ∧
    cleanUrl "http://a/x;y/".toList = "http://a/x;y".toList ∧
    cleanUrl (cleanUrl "http://a/x;y/".toList) = "http://a/x".toList ∧
    cleanUrl (cleanUrl "http://a/x;y/".toList) ≠
      cleanUrl "http://a/x;y/".toList := by
  refine ⟨?_, ?_, ?_, ?_, ?_⟩ <;> decide

/-- Witness for `clean_url_idempotent_without_params` at a concrete
absolute URL with path, query and fragment. -/
theorem clean_url_idempotent_witness :
    cleanUrl (cleanUrl (assembleUrl "https".toList "shop.example.com".toList
        "/a/b/".toList "page=2".toList "frag".toList)) =
      cleanUrl (assembleUrl "https".toList "shop.example.com".toList
        "/a/b/".toList "page=2".toList "frag".toList) :=
  (clean_url_idempotent_without_params "https".toList
    "shop.example.com".toList "/a/b/".toList "page=2".toList "frag".toList
    (by decide) (by decide) (by decide) (by decide) (by decide)
    (Or.inr ⟨"a/b/".toList, rfl⟩) (by decide) (by decide)
    (by decide) (by decide)).2

end Jewelry
